import Mathlib

/-!
Shallow embedding of the sample-duck audio playback engine
(source file: src/audio_player.rs) together with theorems that settle
the behavioural claims about it.

Modelling conventions:
- Machine floating point (f32) values are represented as exact
  rationals.  Where a claim depends on the exact float result, the
  embedding applies `f32Round`, a round-to-nearest-even model of
  rounding a real value to the 24-bit-significand grid of IEEE binary32.
  The model is exact on the normal range of f32, which covers every
  value this program produces; subnormal underflow and overflow to
  infinity are not modelled.
- The engine state (struct AudioPlayer) is a record; methods become
  functions from state to state.
- The IO performed by `load` (file open, container probe, track lookup,
  decoder creation, per-packet decoding) is abstracted into a
  `LoadOutcome` input describing what the IO layer returned; the control
  flow of `load` itself is translated from the source.
-/

namespace SampleDuck

/-! ## A rational model of f32 rounding -/

/-- Round-to-nearest with ties to even, on rationals. -/
def roundNearestEven (q : ℚ) : ℤ :=
  let f := ⌊q⌋
  if q - f < 1/2 then f
  else if 1/2 < q - f then f + 1
  else if f % 2 = 0 then f else f + 1

/-- Scale a positive rational up by powers of two until it reaches 2^23,
returning the scaled mantissa and the weight such that
input = mantissa * weight.  Fuel bounds the recursion; 300 steps cover
the whole normal range of f32. -/
def scaleUp : ℕ → ℚ → ℚ × ℚ
  | 0, q => (q, 1)
  | f + 1, q => if q < 2 ^ 23 then
      let p := scaleUp f (q * 2)
      (p.1, p.2 / 2)
    else (q, 1)

/-- Scale a positive rational down by powers of two until it drops below
2^24, returning the scaled mantissa and the weight such that
input = mantissa * weight. -/
def scaleDown : ℕ → ℚ → ℚ × ℚ
  | 0, q => (q, 1)
  | f + 1, q => if 2 ^ 24 ≤ q then
      let p := scaleDown f (q / 2)
      (p.1, p.2 * 2)
    else (q, 1)

/-- Model of rounding a real value to the nearest IEEE binary32 value
(round-to-nearest-even on a 24-bit significand). -/
def f32Round (q : ℚ) : ℚ :=
  if q = 0 then 0
  else if |q| < 2 ^ 23 then
    (if q < 0 then -1 else 1) * (roundNearestEven (scaleUp 300 |q|).1 : ℚ) *
      (scaleUp 300 |q|).2
  else
    (if q < 0 then -1 else 1) * (roundNearestEven (scaleDown 300 |q|).1 : ℚ) *
      (scaleDown 300 |q|).2

lemma roundNearestEven_intCast (n : ℤ) : roundNearestEven (n : ℚ) = n := by
  simp [roundNearestEven]

lemma scaleUp_eval (k : ℕ) : ∀ (f : ℕ) (q : ℚ), 0 < q → k ≤ f →
    2 ^ 23 ≤ q * 2 ^ k → (∀ j, j < k → q * 2 ^ j < 2 ^ 23) →
    scaleUp f q = (q * 2 ^ k, (2 ^ k)⁻¹) := by
  induction k with
  | zero =>
    intro f q hq _ h1 _
    rw [pow_zero, mul_one] at h1
    cases f with
    | zero => simp [scaleUp]
    | succ f => simp [scaleUp, not_lt.mpr h1]
  | succ k ih =>
    intro f q hq hkf h1 h2
    have hsm : q < 2 ^ 23 := by
      have := h2 0 (Nat.succ_pos k)
      simpa using this
    obtain ⟨f', rfl⟩ : ∃ f', f = f' + 1 := ⟨f - 1, by omega⟩
    have hrec := ih f' (q * 2) (by positivity) (by omega)
      (by rw [mul_assoc, ← pow_succ']; exact h1)
      (by intro j hj
          have := h2 (j + 1) (by omega)
          rw [mul_assoc, ← pow_succ']
          exact this)
    simp only [scaleUp, if_pos hsm, hrec]
    simp only [Prod.mk.injEq]
    exact ⟨by ring, by rw [pow_succ, mul_inv]; ring⟩

lemma scaleDown_eval (k : ℕ) : ∀ (f : ℕ) (q : ℚ), 0 < q → k ≤ f →
    q / 2 ^ k < 2 ^ 24 → (∀ j, j < k → 2 ^ 24 ≤ q / 2 ^ j) →
    scaleDown f q = (q / 2 ^ k, 2 ^ k) := by
  induction k with
  | zero =>
    intro f q hq _ h1 _
    rw [pow_zero, div_one] at h1
    cases f with
    | zero => simp [scaleDown]
    | succ f => simp [scaleDown, not_le.mpr h1]
  | succ k ih =>
    intro f q hq hkf h1 h2
    have hbig : 2 ^ 24 ≤ q := by
      have := h2 0 (Nat.succ_pos k)
      simpa using this
    obtain ⟨f', rfl⟩ : ∃ f', f = f' + 1 := ⟨f - 1, by omega⟩
    have hrec := ih f' (q / 2) (by positivity) (by omega)
      (by rw [div_div, ← pow_succ']; exact h1)
      (by intro j hj
          have := h2 (j + 1) (by omega)
          rw [div_div, ← pow_succ']
          exact this)
    simp only [scaleDown, if_pos hbig, hrec]
    simp only [Prod.mk.injEq]
    exact ⟨by rw [div_div, ← pow_succ'], by rw [pow_succ]⟩

lemma f32Round_eval_small (q : ℚ) (k : ℕ) (hq : 0 < q) (hsm : q < 2 ^ 23)
    (hk : k ≤ 300) (h1 : 2 ^ 23 ≤ q * 2 ^ k)
    (h2 : ∀ j, j < k → q * 2 ^ j < 2 ^ 23) :
    f32Round q = (roundNearestEven (q * 2 ^ k) : ℚ) * (2 ^ k)⁻¹ := by
  rw [f32Round, if_neg (ne_of_gt hq), abs_of_pos hq, if_pos hsm,
    scaleUp_eval k 300 q hq hk h1 h2, if_neg (not_lt.mpr hq.le)]
  ring

lemma f32Round_eval_big (q : ℚ) (k : ℕ) (hq : 0 < q) (hbig : ¬q < 2 ^ 23)
    (hk : k ≤ 300) (h1 : q / 2 ^ k < 2 ^ 24)
    (h2 : ∀ j, j < k → 2 ^ 24 ≤ q / 2 ^ j) :
    f32Round q = (roundNearestEven (q / 2 ^ k) : ℚ) * 2 ^ k := by
  rw [f32Round, if_neg (ne_of_gt hq), abs_of_pos hq, if_neg hbig,
    scaleDown_eval k 300 q hq hk h1 h2, if_neg (not_lt.mpr hq.le)]
  ring

lemma f32Round_neg (q : ℚ) : f32Round (-q) = -f32Round q := by
  rcases lt_trichotomy q 0 with hlt | rfl | hgt
  · have h1 : (-q : ℚ) ≠ 0 := ne_of_gt (neg_pos.mpr hlt)
    simp only [f32Round, if_neg h1, if_neg (ne_of_lt hlt), abs_neg,
      if_neg (not_lt.mpr (le_of_lt (neg_pos.mpr hlt))), if_pos hlt]
    split_ifs <;> ring
  · simp [f32Round]
  · have h1 : (-q : ℚ) ≠ 0 := ne_of_lt (neg_neg_iff_pos.mpr hgt)
    simp only [f32Round, if_neg h1, if_neg (ne_of_gt hgt), abs_neg,
      if_pos (neg_neg_iff_pos.mpr hgt), if_neg (not_lt.mpr hgt.le)]
    split_ifs <;> ring

/-- A positive value below 2^23 whose mantissa is exactly an integer is
a fixed point of f32 rounding. -/
lemma f32Round_exact_small (q : ℚ) (k : ℕ) (n : ℤ) (hq : 0 < q)
    (hsm : q < 2 ^ 23) (hk : k ≤ 300) (hn : q * 2 ^ k = (n : ℚ))
    (hmono : k = 0 ∨ q * 2 ^ (k - 1) < 2 ^ 23)
    (h1 : 2 ^ 23 ≤ q * 2 ^ k) :
    f32Round q = q := by
  have h2 : ∀ j, j < k → q * 2 ^ j < 2 ^ 23 := by
    intro j hj
    rcases hmono with h | h
    · omega
    · calc q * 2 ^ j ≤ q * 2 ^ (k - 1) := by
            apply mul_le_mul_of_nonneg_left _ hq.le
            exact pow_le_pow_right₀ (by norm_num) (by omega)
        _ < 2 ^ 23 := h
  rw [f32Round_eval_small q k hq hsm hk h1 h2, hn, roundNearestEven_intCast,
    ← hn]
  field_simp

/-- A positive value at least 2^23 whose mantissa is exactly an integer
is a fixed point of f32 rounding. -/
lemma f32Round_exact_big (q : ℚ) (k : ℕ) (n : ℤ) (hq : 0 < q)
    (hbig : ¬q < 2 ^ 23) (hk : k ≤ 300) (hn : q / 2 ^ k = (n : ℚ))
    (hmono : k = 0 ∨ 2 ^ 24 ≤ q / 2 ^ (k - 1))
    (h1 : q / 2 ^ k < 2 ^ 24) :
    f32Round q = q := by
  have h2 : ∀ j, j < k → 2 ^ 24 ≤ q / 2 ^ j := by
    intro j hj
    rcases hmono with h | h
    · omega
    · calc (2 : ℚ) ^ 24 ≤ q / 2 ^ (k - 1) := h
        _ ≤ q / 2 ^ j := by
            apply div_le_div_of_nonneg_left hq.le (by positivity)
            exact pow_le_pow_right₀ (by norm_num) (by omega)
  rw [f32Round_eval_big q k hq hbig hk h1 h2, hn, roundNearestEven_intCast,
    ← hn]
  field_simp

lemma f32Round_zero : f32Round 0 = 0 := by simp [f32Round]

lemma f32Round_one : f32Round 1 = 1 := by
  apply f32Round_exact_small 1 23 (2 ^ 23) one_pos (by norm_num) (by norm_num)
    (by norm_num) (by norm_num) (by norm_num)

/-! ## Sample normalization (process_audio_buffer arms) -/

/-- Normalization of a signed 16-bit sample, from the S16 arm of
process_audio_buffer: `s as f32 / i16::MAX as f32`.  The conversion of
i16::MAX to f32 is exact, so the divisor is the literal 32767. -/
def s16Normalize (s : ℤ) : ℚ := f32Round (f32Round s / 32767)

/-- Normalization of a signed 32-bit sample, from the S32 arm of
process_audio_buffer: `s as f32 / i32::MAX as f32`.  Both conversions to
f32 round; in particular i32::MAX rounds to 2^31. -/
def s32Normalize (s : ℤ) : ℚ := f32Round (f32Round s / f32Round 2147483647)

/-- Normalization of a signed 24-bit sample, from the S24 arm of
process_audio_buffer: non-negative values divide by 8388607 (2^23 - 1),
negative values divide by 8388608 (2^23). -/
def s24Normalize (s : ℤ) : ℚ :=
  if 0 ≤ s then f32Round (f32Round s / 8388607)
  else f32Round (f32Round s / 8388608)

/-- Normalization of an unsigned 8-bit sample, from the U8 arm of
process_audio_buffer: `(s as f32 - 128.0) / 128.0`. -/
def u8Normalize (s : ℤ) : ℚ := f32Round (f32Round (f32Round s - 128) / 128)

lemma f32Round_32767 : f32Round 32767 = 32767 := by
  apply f32Round_exact_small 32767 9 16776704 (by norm_num) (by norm_num)
    (by norm_num) (by norm_num) (by norm_num) (by norm_num)

lemma f32Round_32768 : f32Round 32768 = 32768 := by
  apply f32Round_exact_small 32768 8 8388608 (by norm_num) (by norm_num)
    (by norm_num) (by norm_num) (by norm_num) (by norm_num)

lemma f32Round_imax32 : f32Round 2147483647 = 2147483648 := by
  rw [f32Round_eval_big 2147483647 7 (by norm_num) (by norm_num) (by norm_num)
    (by norm_num) (by intro j hj; interval_cases j <;> norm_num)]
  have : ((2147483647 : ℚ) / 2 ^ 7) = 2147483647 / 128 := by norm_num
  rw [this]
  have hr : roundNearestEven ((2147483647 : ℚ) / 128) = 16777216 := by
    norm_num [roundNearestEven]
  rw [hr]
  norm_num

lemma f32Round_2pow31 : f32Round 2147483648 = 2147483648 := by
  apply f32Round_exact_big 2147483648 8 8388608 (by norm_num) (by norm_num)
    (by norm_num) (by norm_num) (by norm_num) (by norm_num)

lemma f32Round_8388607 : f32Round 8388607 = 8388607 := by
  apply f32Round_exact_small 8388607 1 16777214 (by norm_num) (by norm_num)
    (by norm_num) (by norm_num) (by norm_num) (by norm_num)

lemma f32Round_8388608 : f32Round 8388608 = 8388608 := by
  apply f32Round_exact_big 8388608 0 8388608 (by norm_num) (by norm_num)
    (by norm_num) (by norm_num) (by norm_num) (by norm_num)

lemma f32Round_255 : f32Round 255 = 255 := by
  apply f32Round_exact_small 255 16 16711680 (by norm_num) (by norm_num)
    (by norm_num) (by norm_num) (by norm_num) (by norm_num)

lemma f32Round_127 : f32Round 127 = 127 := by
  apply f32Round_exact_small 127 17 16646144 (by norm_num) (by norm_num)
    (by norm_num) (by norm_num) (by norm_num) (by norm_num)

lemma f32Round_128 : f32Round 128 = 128 := by
  apply f32Round_exact_small 128 16 8388608 (by norm_num) (by norm_num)
    (by norm_num) (by norm_num) (by norm_num) (by norm_num)

lemma f32Round_127_128 : f32Round (127 / 128) = 127 / 128 := by
  apply f32Round_exact_small (127 / 128) 24 16646144 (by norm_num)
    (by norm_num) (by norm_num) (by norm_num) (by norm_num) (by norm_num)

/-- The f32 quotient -32768 / 32767 rounds to -(32769 / 32768), which is
strictly below -1. -/
lemma f32Round_s16_min_quot : f32Round (32768 / 32767) = 32769 / 32768 := by
  rw [f32Round_eval_small (32768 / 32767) 23 (by norm_num) (by norm_num)
    (by norm_num) (by norm_num)
    (by intro j hj
        calc (32768 : ℚ) / 32767 * 2 ^ j ≤ 32768 / 32767 * 2 ^ 22 := by
              apply mul_le_mul_of_nonneg_left _ (by norm_num)
              exact pow_le_pow_right₀ (by norm_num) (by omega)
          _ < 2 ^ 23 := by norm_num)]
  have : ((32768 : ℚ) / 32767 * 2 ^ 23) = 274877906944 / 32767 := by norm_num
  rw [this]
  have hr : roundNearestEven ((274877906944 : ℚ) / 32767) = 8388864 := by
    norm_num [roundNearestEven]
  rw [hr]
  norm_num

lemma s16Normalize_max : s16Normalize 32767 = 1 := by
  rw [s16Normalize]
  have h1 : ((32767 : ℤ) : ℚ) = 32767 := by norm_num
  rw [h1, f32Round_32767]
  have h2 : ((32767 : ℚ) / 32767) = 1 := by norm_num
  rw [h2, f32Round_one]

lemma s16Normalize_min : s16Normalize (-32768) = -(32769 / 32768) := by
  rw [s16Normalize]
  have h1 : ((-32768 : ℤ) : ℚ) = -(32768 : ℚ) := by norm_num
  rw [h1, f32Round_neg, f32Round_32768]
  have h2 : (-(32768 : ℚ) / 32767) = -(32768 / 32767) := by ring
  rw [h2, f32Round_neg, f32Round_s16_min_quot]

lemma s32Normalize_max : s32Normalize (2 ^ 31 - 1) = 1 := by
  rw [s32Normalize]
  have h1 : ((2 ^ 31 - 1 : ℤ) : ℚ) = 2147483647 := by norm_num
  rw [h1, f32Round_imax32]
  have h2 : ((2147483648 : ℚ) / 2147483648) = 1 := by norm_num
  rw [h2, f32Round_one]

lemma s32Normalize_min : s32Normalize (-(2 ^ 31)) = -1 := by
  rw [s32Normalize]
  have h1 : ((-(2 ^ 31) : ℤ) : ℚ) = -(2147483648 : ℚ) := by norm_num
  rw [h1, f32Round_neg, f32Round_2pow31, f32Round_imax32]
  have h2 : (-(2147483648 : ℚ) / 2147483648) = -1 := by norm_num
  rw [h2]
  have h3 : (-1 : ℚ) = -(1 : ℚ) := by norm_num
  rw [h3, f32Round_neg, f32Round_one]

lemma s24Normalize_max : s24Normalize (2 ^ 23 - 1) = 1 := by
  rw [s24Normalize, if_pos (by norm_num)]
  have h1 : ((2 ^ 23 - 1 : ℤ) : ℚ) = 8388607 := by norm_num
  rw [h1, f32Round_8388607]
  have h2 : ((8388607 : ℚ) / 8388607) = 1 := by norm_num
  rw [h2, f32Round_one]

lemma s24Normalize_min : s24Normalize (-(2 ^ 23)) = -1 := by
  rw [s24Normalize, if_neg (by norm_num)]
  have h1 : ((-(2 ^ 23) : ℤ) : ℚ) = -(8388608 : ℚ) := by norm_num
  rw [h1, f32Round_neg, f32Round_8388608]
  have h2 : (-(8388608 : ℚ) / 8388608) = -(1 : ℚ) := by norm_num
  rw [h2, f32Round_neg, f32Round_one]

lemma u8Normalize_max : u8Normalize 255 = 127 / 128 := by
  rw [u8Normalize]
  have h1 : ((255 : ℤ) : ℚ) = 255 := by norm_num
  rw [h1, f32Round_255]
  have h2 : ((255 : ℚ) - 128) = 127 := by norm_num
  rw [h2, f32Round_127]
  rw [f32Round_127_128]

lemma u8Normalize_min : u8Normalize 0 = -1 := by
  rw [u8Normalize]
  have h1 : ((0 : ℤ) : ℚ) = 0 := by norm_num
  rw [h1, f32Round_zero]
  have h2 : ((0 : ℚ) - 128) = -(128 : ℚ) := by norm_num
  rw [h2, f32Round_neg, f32Round_128]
  have h3 : (-(128 : ℚ) / 128) = -(1 : ℚ) := by norm_num
  rw [h3, f32Round_neg, f32Round_one]

/-- Claim C1, counterexample.  The claim states that every supported
encoding maps its maximum positive value to +1.0 (within floating
rounding) and its maximum-magnitude negative value exactly to -1.0.
Unsigned 8-bit maps its maximum 255 to 127/128 = 0.9921875, far from
+1.0, and signed 16-bit maps its minimum -32768 to -(32769/32768),
which is strictly below -1.0, so the claim is false. -/
theorem normalization_extremes_counterexample :
    u8Normalize 255 = 127 / 128 ∧ u8Normalize 255 ≠ 1 ∧
    s16Normalize (-32768) = -(32769 / 32768) ∧ s16Normalize (-32768) ≠ -1 := by
  refine ⟨u8Normalize_max, ?_, s16Normalize_min, ?_⟩
  · rw [u8Normalize_max]; norm_num
  · rw [s16Normalize_min]; norm_num

/-- Claim C1, amended.  Exact extreme values of the load-time
normalization: S16 maps +32767 to +1.0 but -32768 to -(32769/32768)
(the f32 rounding of -32768/32767, slightly below -1.0); S32 maps both
2^31 - 1 and -2^31 exactly to plus or minus 1.0 (because i32::MAX as
f32 rounds to 2^31); S24 maps its extremes exactly to plus or minus 1.0
via its sign-dependent divisor; U8 maps 0 exactly to -1.0 but its
maximum 255 only to 127/128. -/
theorem normalization_extremes :
    s16Normalize 32767 = 1 ∧ s16Normalize (-32768) = -(32769 / 32768) ∧
    s32Normalize (2 ^ 31 - 1) = 1 ∧ s32Normalize (-(2 ^ 31)) = -1 ∧
    s24Normalize (2 ^ 23 - 1) = 1 ∧ s24Normalize (-(2 ^ 23)) = -1 ∧
    u8Normalize 0 = -1 ∧ u8Normalize 255 = 127 / 128 :=
  ⟨s16Normalize_max, s16Normalize_min, s32Normalize_max, s32Normalize_min,
    s24Normalize_max, s24Normalize_min, u8Normalize_min, u8Normalize_max⟩

/-! ## Engine state and transport operations -/

inductive PlaybackState
  | Stopped
  | Playing
  | Paused
  deriving DecidableEq

/-- The engine state (struct AudioPlayer).  The cpal stream handle is
not modelled; the device parameters it was built with (out_channels,
sample_rate) are kept as plain fields. -/
structure AudioPlayer where
  samples : List ℚ
  samplesCount : ℕ
  peakSamples : List (ℚ × ℚ)
  playPos : ℕ
  state : PlaybackState
  outChannels : ℕ
  sampleRate : ℕ
  loopEnabled : Bool
  deriving DecidableEq

/-- Engine state right after AudioPlayer::new succeeds: empty buffer,
no peaks, position 0, Stopped, loop disabled. -/
def initialPlayer (outChannels sampleRate : ℕ) : AudioPlayer :=
  { samples := [], samplesCount := 0, peakSamples := [], playPos := 0,
    state := .Stopped, outChannels := outChannels,
    sampleRate := sampleRate, loopEnabled := false }

def play (p : AudioPlayer) : AudioPlayer := { p with state := .Playing }

def pause (p : AudioPlayer) : AudioPlayer := { p with state := .Paused }

def stop (p : AudioPlayer) : AudioPlayer :=
  { p with state := .Stopped, playPos := 0 }

def togglePlayState (p : AudioPlayer) : AudioPlayer :=
  match p.state with
  | .Stopped => play p
  | .Paused => play p
  | .Playing => stop p

def setLoop (p : AudioPlayer) (enabled : Bool) : AudioPlayer :=
  { p with loopEnabled := enabled }

/-- The result of an f32 expression that may be non-finite. -/
inductive FloatResult
  | nan
  | posInf
  | negInf
  | finite (q : ℚ)
  deriving DecidableEq

/-- f32 division with the IEEE special cases for a zero divisor. -/
def f32Div (x y : ℚ) : FloatResult :=
  if y = 0 then
    if x = 0 then .nan else if 0 < x then .posInf else .negInf
  else .finite (f32Round (x / y))

def getPositionPercentage (p : AudioPlayer) : FloatResult :=
  f32Div (f32Round p.playPos) (f32Round p.samplesCount)

/-- Rust conversion `as usize` applied to an f32 value: truncation
toward zero, negative values saturate to 0. -/
def f32ToUsize (q : ℚ) : ℕ := ⌊q⌋.toNat

def seekToPosition (p : AudioPlayer) (samplePos : ℕ) : AudioPlayer :=
  { p with playPos := min samplePos p.samples.length }

def seekToPositionPercentage (p : AudioPlayer) (pct : ℚ) : AudioPlayer :=
  seekToPosition p (f32ToUsize (f32Round (f32Round p.samplesCount * pct)))

/-! ## Channel remix (convert_buffer) -/

/-- The (2,1) arm of convert_buffer: averages the two channels with 0.5
gain, the right channel read with unwrap_or(0.0) where it is shorter.
The f32 rounding of the remix arithmetic is not modelled; no claim
depends on it. -/
def stereoMix : List ℚ → List ℚ → List ℚ
  | [], _ => []
  | l :: ls, [] => (l + 0) * (1/2) :: stereoMix ls []
  | l :: ls, r :: rs => (l + r) * (1/2) :: stereoMix ls rs

/-- The (2,2) arm of convert_buffer: interleaves the two channels, the
right channel read with unwrap_or(0.0) where it is shorter. -/
def stereoCopy : List ℚ → List ℚ → List ℚ
  | [], _ => []
  | l :: ls, [] => l :: 0 :: stereoCopy ls []
  | l :: ls, r :: rs => l :: r :: stereoCopy ls rs

/-- Channel remix step (convert_buffer): the samples appended to the
output vector for one decoded packet, keyed by input and output channel
count.  Any combination other than the four special cases broadcasts
the first input channel into every output channel. -/
def convertBuffer (inChannels outChannels : ℕ) (ch0 ch1 : List ℚ) :
    List ℚ :=
  match inChannels, outChannels with
  | 1, 1 => ch0
  | 1, 2 => (ch0.map fun s => [s, s]).flatten
  | 2, 1 => stereoMix ch0 ch1
  | 2, 2 => stereoCopy ch0 ch1
  | _, _ => (ch0.map fun s => List.replicate outChannels s).flatten

/-- Modelled from the spec: the interleaved form of a two-channel
input, used to state the remix identity claim. -/
def interleaveStereo (ch0 ch1 : List ℚ) : List ℚ :=
  ((ch0.zip ch1).map fun pr => [pr.1, pr.2]).flatten

/-! ## Waveform summarizer (compute_peaks) -/

/-- Splits a list into consecutive chunks of n elements (the last chunk
may be shorter), like the Rust slice chunks iterator.  For n = 0 the
Rust iterator panics; the model returns no chunks, a case no caller
reaches because the window size below is always at least 1. -/
def listChunks : ℕ → List ℚ → List (List ℚ)
  | _, [] => []
  | 0, _ :: _ => []
  | n + 1, x :: xs =>
    ((x :: xs).take (n + 1)) :: listChunks (n + 1) ((x :: xs).drop (n + 1))
termination_by _n l => l.length
decreasing_by simp [List.length_drop]; omega

/-- Minimum of a chunk as computed by the source min_by fold; the empty
chunk yields the unwrap_or default 0. -/
def chunkMin : List ℚ → ℚ
  | [] => 0
  | x :: xs => xs.foldl min x

/-- Maximum of a chunk as computed by the source max_by fold; the empty
chunk yields the unwrap_or default 0. -/
def chunkMax : List ℚ → ℚ
  | [] => 0
  | x :: xs => xs.foldl max x

/-- Waveform summarizer (compute_peaks): downsamples to about 2000
(min, max) pairs using the window size max(len, 2000) / 2000. -/
def computePeaks (samples : List ℚ) : List (ℚ × ℚ) :=
  let targetPoints : ℕ := 2000
  let samplesPerPoint := (max samples.length targetPoints) / targetPoints
  (listChunks samplesPerPoint samples).filterMap fun chunk =>
    if chunk.isEmpty then none else some (chunkMin chunk, chunkMax chunk)

/-! ## Render callback (audio_callback) -/

def zeroFrame (c : ℕ) : List ℚ := List.replicate c 0

/-- The frame loop of the render callback, over whole frames of size c:
emitted frames, final position, final playback state (Playing unless
the end of a non-looping buffer was reached). -/
def cbLoop (samples : List ℚ) (c : ℕ) (looping : Bool) :
    ℕ → ℕ → List (List ℚ) × ℕ × PlaybackState
  | 0, pos => ([], pos, .Playing)
  | n + 1, pos =>
    if pos + c ≤ samples.length then
      let r := cbLoop samples c looping n (pos + c)
      (((samples.drop pos).take c) :: r.1, r.2)
    else if looping then
      if c ≤ samples.length then
        let r := cbLoop samples c looping n c
        ((samples.take c) :: r.1, r.2)
      else
        let r := cbLoop samples c looping n 0
        (zeroFrame c :: r.1, r.2)
    else
      (List.replicate (n + 1) (zeroFrame c), pos, .Stopped)

/-- Render callback (audio_callback).  The host delivers an output
buffer holding a whole number of frames, modelled as numFrames frames
of size c.  The output is pre-filled with zeros; if the state is not
Playing or the buffer is empty the callback returns before reading or
writing the position. -/
def audioCallback (samples : List ℚ) (pos0 : ℕ) (state0 : PlaybackState)
    (looping : Bool) (c numFrames : ℕ) :
    List (List ℚ) × ℕ × PlaybackState :=
  if state0 = .Playing ∧ samples ≠ [] then
    cbLoop samples c looping numFrames pos0
  else
    (List.replicate numFrames (zeroFrame c), pos0, state0)

/-- The frames copied verbatim from the buffer starting at pos: k
consecutive frames of size c. -/
def framesFrom (samples : List ℚ) (c pos k : ℕ) : List (List ℚ) :=
  (List.range k).map fun i => (samples.drop (pos + c * i)).take c

/-! ## The load operation -/

inductive AudioPlayerError
  | NoOutputDevice
  | UnsupportedFormat (msg : String)
  | DecodingError (msg : String)
  | IoError
  | SymphoniaError
  deriving DecidableEq

/-- A decoded audio packet as consumed by process_audio_buffer: the
first two channel planes plus the channel count of the signal spec, for
each supported sample format, or an unsupported format. -/
inductive DecodedBuffer
  | F32 (ch0 ch1 : List ℚ) (inChannels : ℕ)
  | F64 (ch0 ch1 : List ℚ) (inChannels : ℕ)
  | S16 (ch0 ch1 : List ℤ) (inChannels : ℕ)
  | S32 (ch0 ch1 : List ℤ) (inChannels : ℕ)
  | S24 (ch0 ch1 : List ℤ) (inChannels : ℕ)
  | U8 (ch0 ch1 : List ℤ) (inChannels : ℕ)
  | unsupported
  deriving DecidableEq

/-- process_audio_buffer: normalizes one decoded packet to f32 per arm
and remixes it, returning the samples appended to the output vector. -/
def processAudioBuffer (outChannels : ℕ) :
    DecodedBuffer → Except AudioPlayerError (List ℚ)
  | .F32 ch0 ch1 inCh => .ok (convertBuffer inCh outChannels ch0 ch1)
  | .F64 ch0 ch1 inCh =>
      .ok (convertBuffer inCh outChannels (ch0.map f32Round)
        (ch1.map f32Round))
  | .S16 ch0 ch1 inCh =>
      .ok (convertBuffer inCh outChannels (ch0.map s16Normalize)
        (ch1.map s16Normalize))
  | .S32 ch0 ch1 inCh =>
      .ok (convertBuffer inCh outChannels (ch0.map s32Normalize)
        (ch1.map s32Normalize))
  | .S24 ch0 ch1 inCh =>
      .ok (convertBuffer inCh outChannels (ch0.map s24Normalize)
        (ch1.map s24Normalize))
  | .U8 ch0 ch1 inCh =>
      .ok (convertBuffer inCh outChannels (ch0.map u8Normalize)
        (ch1.map u8Normalize))
  | .unsupported => .error (.UnsupportedFormat "Unsupported audio buffer format")

/-- What the IO and decoding layer returned for one load call: failure
at one of the stages before the packet loop, or the sequence of
per-packet decode results (none = the decoder failed on that packet). -/
inductive LoadOutcome
  | openFail
  | probeFail
  | noTrack
  | decoderFail
  | packets (pkts : List (Option DecodedBuffer))

/-- The packet loop of load: decodes every packet sequentially, failing
on the first decoder error or unsupported format.  The per-packet error
message detail (packet number) is elided. -/
def decodeAll (outChannels : ℕ) :
    List (Option DecodedBuffer) → Except AudioPlayerError (List ℚ)
  | [] => .ok []
  | none :: _ => .error (.DecodingError "Failed to decode packet")
  | some b :: rest => do
      let s ← processAudioBuffer outChannels b
      let r ← decodeAll outChannels rest
      .ok (s ++ r)

/-- load(path): an early failure (file open, probe, track lookup,
decoder creation) returns the error with the state untouched; otherwise
load stops playback first, decodes all packets, and either fails
(decode error, unsupported format, or zero samples decoded) or installs
the new buffer, resets the position, sets the state to Stopped and
recomputes the peaks. -/
def load (p : AudioPlayer) (o : LoadOutcome) :
    AudioPlayer × Except AudioPlayerError Unit :=
  match o with
  | .openFail => (p, .error .IoError)
  | .probeFail => (p, .error .SymphoniaError)
  | .noTrack => (p, .error (.UnsupportedFormat "No supported audio tracks found"))
  | .decoderFail => (p, .error .SymphoniaError)
  | .packets pkts =>
    let p1 := stop p
    match decodeAll p.outChannels pkts with
    | .error e => (p1, .error e)
    | .ok newSamples =>
      if newSamples.isEmpty then
        (p1, .error (.DecodingError "No audio samples decoded"))
      else
        ({ p1 with
            samplesCount := newSamples.length,
            samples := newSamples,
            playPos := 0,
            state := .Stopped,
            peakSamples := computePeaks newSamples }, .ok ())

/-! ## Claims about the transport operations -/

/-- Claim C5: for every buffer and every index, seek(index) sets the
playback position to min(index, buffer.len()) — any index past the end
is clamped to the buffer length — stays in bounds (the model is total,
so no panic or out-of-bounds read occurs), and changes neither the
playback state nor the buffer. -/
theorem seek_clamps (p : AudioPlayer) (i : ℕ) :
    (seekToPosition p i).playPos = min i p.samples.length ∧
    (seekToPosition p i).playPos ≤ p.samples.length ∧
    (seekToPosition p i).state = p.state ∧
    (seekToPosition p i).samples = p.samples ∧
    (seekToPosition p i).peakSamples = p.peakSamples ∧
    (seekToPosition p i).loopEnabled = p.loopEnabled := by
  refine ⟨rfl, ?_, rfl, rfl, rfl, rfl⟩
  simp [seekToPosition]

/-- Claim C6: toggle() maps Stopped and Paused to Playing (position
kept), and Playing to Stopped with the position reset to 0 — never to
Paused — for every starting position and buffer. -/
theorem toggle_transitions (p : AudioPlayer) :
    (togglePlayState p).state =
      (if p.state = .Playing then PlaybackState.Stopped
       else PlaybackState.Playing) ∧
    (togglePlayState p).playPos =
      (if p.state = .Playing then 0 else p.playPos) ∧
    (togglePlayState p).samples = p.samples ∧
    (togglePlayState p).loopEnabled = p.loopEnabled := by
  cases h : p.state <;> simp [togglePlayState, h, play, stop]

/-- Claim C10: with no track loaded (samples_count = 0, position 0) the
position-fraction query divides 0.0 by 0.0 in f32 and returns NaN; the
division is unguarded. -/
theorem position_percentage_nan (p : AudioPlayer)
    (hc : p.samplesCount = 0) (hp : p.playPos = 0) :
    getPositionPercentage p = .nan := by
  simp [getPositionPercentage, f32Div, hc, hp, f32Round_zero]

/-- Witness for C10 at the freshly constructed engine state. -/
theorem position_percentage_nan_witness :
    getPositionPercentage (initialPlayer 2 44100) = .nan :=
  position_percentage_nan (initialPlayer 2 44100) rfl rfl

/-- Claim C9, counterexample.  The claim states that play() on an empty
buffer never transitions the engine to Playing; but play()
unconditionally sets the state to Playing, also on the empty buffer. -/
theorem play_empty_sets_playing :
    (initialPlayer 2 44100).samples = [] ∧
    (play (initialPlayer 2 44100)).state = .Playing :=
  ⟨rfl, rfl⟩

/-- Claim C9, amended: play() on an empty buffer does set the state to
Playing; every subsequent render callback then fills the whole output
with zeros, leaves position and state untouched, and cannot crash (the
callback returns at its guard before reading the buffer). -/
theorem play_empty_silent_safe (p : AudioPlayer) (h : p.samples = [])
    (pos0 : ℕ) (looping : Bool) (c numFrames : ℕ) :
    (play p).state = .Playing ∧
    audioCallback p.samples pos0 ((play p).state) looping c numFrames =
      (List.replicate numFrames (zeroFrame c), pos0, .Playing) := by
  refine ⟨rfl, ?_⟩
  rw [h]
  simp [audioCallback, play]

/-- Witness for C9 (amended) at the freshly constructed engine state. -/
theorem play_empty_silent_safe_witness :
    (play (initialPlayer 2 44100)).state = .Playing ∧
    audioCallback (initialPlayer 2 44100).samples 0
        ((play (initialPlayer 2 44100)).state) false 2 3 =
      (List.replicate 3 (zeroFrame 2), 0, .Playing) :=
  play_empty_silent_safe (initialPlayer 2 44100) rfl 0 false 2 3

/-! ## Claims about seeking by percentage -/

lemma f32Round_10 : f32Round 10 = 10 := by
  apply f32Round_exact_small 10 20 10485760 (by norm_num) (by norm_num)
    (by norm_num) (by norm_num) (by norm_num) (by norm_num)

lemma f32Round_5 : f32Round 5 = 5 := by
  apply f32Round_exact_small 5 21 10485760 (by norm_num) (by norm_num)
    (by norm_num) (by norm_num) (by norm_num) (by norm_num)

/-- A loaded stereo engine state with ten interleaved samples. -/
def stereoTen : AudioPlayer :=
  { initialPlayer 2 44100 with
      samples := List.replicate 10 0, samplesCount := 10 }

/-- Claim C8, counterexample.  The claim states the seek target is
clamped to a frame boundary; but seek_by_percentage(0.5) on a stereo
buffer of 10 samples yields position 5, which is not a multiple of the
output channel count 2 — no frame-boundary rounding happens. -/
theorem seek_percentage_not_frame_aligned :
    stereoTen.outChannels = 2 ∧
    (seekToPositionPercentage stereoTen (1/2)).playPos = 5 ∧
    ¬(2 ∣ (seekToPositionPercentage stereoTen (1/2)).playPos) := by
  have hcast : ((stereoTen.samplesCount : ℚ)) = 10 := by norm_num [stereoTen, initialPlayer]
  have h5 : f32Round stereoTen.samplesCount * (1/2) = 5 := by
    rw [hcast, f32Round_10]; norm_num
  have hpos : (seekToPositionPercentage stereoTen (1/2)).playPos = 5 := by
    rw [seekToPositionPercentage, h5, f32Round_5]
    simp [f32ToUsize, seekToPosition, stereoTen, initialPlayer]
  exact ⟨rfl, hpos, by rw [hpos]; norm_num⟩

/-- Claim C8, amended: seek_by_percentage(p) sets the position to the
usize truncation of the f32 product samples_count * p, clamped to
[0, buffer length]; the playback state and buffer are unchanged, but
the result is not rounded to a frame boundary. -/
theorem seek_percentage_spec (p : AudioPlayer) (pct : ℚ) :
    (seekToPositionPercentage p pct).playPos =
      min (f32ToUsize (f32Round (f32Round p.samplesCount * pct)))
        p.samples.length ∧
    (seekToPositionPercentage p pct).playPos ≤ p.samples.length ∧
    (seekToPositionPercentage p pct).state = p.state ∧
    (seekToPositionPercentage p pct).samples = p.samples := by
  refine ⟨rfl, ?_, rfl, rfl⟩
  simp [seekToPositionPercentage, seekToPosition]

/-! ## Claims about the channel remix -/

lemma stereoCopy_eq_interleave :
    ∀ ch0 ch1 : List ℚ, ch1.length = ch0.length →
      stereoCopy ch0 ch1 = interleaveStereo ch0 ch1 := by
  intro ch0
  induction ch0 with
  | nil =>
    intro ch1 h
    simp [stereoCopy, interleaveStereo]
  | cons l ls ih =>
    intro ch1 h
    cases ch1 with
    | nil => simp at h
    | cons r rs =>
      simp only [List.length_cons, Nat.succ.injEq] at h
      simp [stereoCopy, interleaveStereo, ih rs h]

/-- Claim C3, counterexample.  The claim states the remix is the
identity whenever the input channel count equals the output channel
count, for every count; but a 3-channel to 3-channel remix takes the
broadcast fallback, so the output repeats channel 0 and loses channel 1
(output element 1 is 1, not the channel-1 sample 2). -/
theorem remix_three_channel_not_identity :
    convertBuffer 3 3 [1] [2] = [1, 1, 1] ∧
    (convertBuffer 3 3 [1] [2]).getD 1 0 ≠ (2 : ℚ) := by
  have h : convertBuffer 3 3 [1] [2] = [1, 1, 1] := by
    simp [convertBuffer, List.replicate]
  refine ⟨h, ?_⟩
  rw [h]
  norm_num

/-- Claim C3, amended: the remix is the identity for matched channel
counts 1 to 1 (verbatim) and 2 to 2 (interleaving, provided the second
channel plane has the same length); for any matched count of 3 or more
the fallback broadcasts channel 0 into every output channel instead. -/
theorem remix_identity_matched_channels :
    (∀ ch0 ch1 : List ℚ, convertBuffer 1 1 ch0 ch1 = ch0) ∧
    (∀ ch0 ch1 : List ℚ, ch1.length = ch0.length →
      convertBuffer 2 2 ch0 ch1 = interleaveStereo ch0 ch1) ∧
    (∀ (n : ℕ) (ch0 ch1 : List ℚ), 3 ≤ n →
      convertBuffer n n ch0 ch1 =
        (ch0.map fun s => List.replicate n s).flatten) := by
  refine ⟨fun ch0 ch1 => rfl, fun ch0 ch1 h => stereoCopy_eq_interleave ch0 ch1 h, ?_⟩
  intro n ch0 ch1 hn
  obtain ⟨m, rfl⟩ : ∃ m, n = m + 3 := ⟨n - 3, by omega⟩
  rfl

/-- Witness for C3 (amended) at concrete channel data. -/
theorem remix_identity_matched_channels_witness :
    convertBuffer 1 1 [5, 7] [] = [5, 7] ∧
    convertBuffer 2 2 [1, 3] [2, 4] = interleaveStereo [1, 3] [2, 4] ∧
    convertBuffer 3 3 [9] [8] =
      (([9] : List ℚ).map fun s => List.replicate 3 s).flatten :=
  ⟨remix_identity_matched_channels.1 [5, 7] [],
    remix_identity_matched_channels.2.1 [1, 3] [2, 4] rfl,
    remix_identity_matched_channels.2.2 3 [9] [8] (by norm_num)⟩

/-! ## Claims about the waveform summarizer -/

lemma listChunks_length (n : ℕ) :
    ∀ l : List ℚ, (listChunks (n + 1) l).length = (l.length + n) / (n + 1) := by
  suffices H : ∀ (m : ℕ) (l : List ℚ), l.length ≤ m →
      (listChunks (n + 1) l).length = (l.length + n) / (n + 1) from
    fun l => H l.length l le_rfl
  intro m
  induction m with
  | zero =>
    intro l hl
    have : l = [] := List.eq_nil_of_length_eq_zero (by omega)
    subst this
    simp only [listChunks, List.length_nil, Nat.zero_add]
    exact (Nat.div_eq_of_lt (by omega)).symm
  | succ m ih =>
    intro l hl
    cases l with
    | nil =>
      simp only [listChunks, List.length_nil, Nat.zero_add]
      exact (Nat.div_eq_of_lt (by omega)).symm
    | cons x xs =>
      simp only [List.length_cons] at hl
      rw [listChunks, List.length_cons,
        ih ((x :: xs).drop (n + 1))
          (by simp only [List.length_drop, List.length_cons]; omega),
        List.length_drop, List.length_cons]
      rcases le_or_lt (xs.length + 1) (n + 1) with hle | hgt
      · have hz : xs.length + 1 - (n + 1) = 0 := by omega
        rw [hz, Nat.zero_add, Nat.div_eq_of_lt (by omega)]
        exact (Nat.div_eq_of_lt_le (by omega) (by omega)).symm
      · have ha : xs.length + 1 - (n + 1) + n + (n + 1) = xs.length + 1 + n := by
          omega
        rw [← Nat.add_div_right (xs.length + 1 - (n + 1) + n) (Nat.succ_pos n),
          ha]

lemma listChunks_ne_nil (n : ℕ) :
    ∀ (l : List ℚ) (c : List ℚ), c ∈ listChunks (n + 1) l → c ≠ [] := by
  suffices H : ∀ (m : ℕ) (l : List ℚ), l.length ≤ m →
      ∀ c ∈ listChunks (n + 1) l, c ≠ [] from
    fun l => H l.length l le_rfl
  intro m
  induction m with
  | zero =>
    intro l hl c hc
    have : l = [] := List.eq_nil_of_length_eq_zero (by omega)
    subst this
    simp [listChunks] at hc
  | succ m ih =>
    intro l hl c hc
    cases l with
    | nil => simp [listChunks] at hc
    | cons x xs =>
      simp only [List.length_cons] at hl
      rw [listChunks] at hc
      rcases List.mem_cons.mp hc with h | h
      · subst h
        simp
      · exact ih ((x :: xs).drop (n + 1))
          (by simp only [List.length_drop, List.length_cons]; omega) c h

lemma filterMap_eq_map_of_forall_some {α β : Type} (l : List α)
    (f : α → Option β) (g : α → β) (h : ∀ a ∈ l, f a = some (g a)) :
    l.filterMap f = l.map g := by
  induction l with
  | nil => rfl
  | cons x xs ih =>
    rw [List.filterMap_cons, h x (List.mem_cons_self x xs), List.map_cons,
      ih fun a ha => h a (List.mem_cons_of_mem x ha)]

lemma foldl_min_le (xs : List ℚ) : ∀ a : ℚ, xs.foldl min a ≤ a := by
  induction xs with
  | nil => intro a; simp
  | cons y ys ih =>
    intro a
    calc (y :: ys).foldl min a = ys.foldl min (min a y) := rfl
      _ ≤ min a y := ih (min a y)
      _ ≤ a := min_le_left a y

lemma le_foldl_max (xs : List ℚ) : ∀ a : ℚ, a ≤ xs.foldl max a := by
  induction xs with
  | nil => intro a; simp
  | cons y ys ih =>
    intro a
    calc a ≤ max a y := le_max_left a y
      _ ≤ ys.foldl max (max a y) := ih (max a y)
      _ = (y :: ys).foldl max a := rfl

lemma chunkMin_le_chunkMax (c : List ℚ) (h : c ≠ []) :
    chunkMin c ≤ chunkMax c := by
  cases c with
  | nil => exact absurd rfl h
  | cons x xs =>
    calc chunkMin (x :: xs) = xs.foldl min x := rfl
      _ ≤ x := foldl_min_le xs x
      _ ≤ xs.foldl max x := le_foldl_max xs x
      _ = chunkMax (x :: xs) := rfl

/-- The number of peak points, for a non-empty buffer: one per chunk of
the window size. -/
lemma computePeaks_length (samples : List ℚ) (_h : samples ≠ []) :
    (computePeaks samples).length =
      (samples.length + (max samples.length 2000) / 2000 - 1) /
        ((max samples.length 2000) / 2000) := by
  have hspp : 1 ≤ (max samples.length 2000) / 2000 :=
    (Nat.one_le_div_iff (by omega)).mpr (le_max_right _ _)
  obtain ⟨k, hk⟩ : ∃ k, (max samples.length 2000) / 2000 = k + 1 :=
    ⟨(max samples.length 2000) / 2000 - 1, by omega⟩
  rw [computePeaks]
  simp only [hk]
  rw [filterMap_eq_map_of_forall_some (listChunks (k + 1) samples) _
      (fun c => (chunkMin c, chunkMax c))
      (fun c hc => by
        rw [if_neg]
        simpa using listChunks_ne_nil k samples c hc),
    List.length_map, listChunks_length k samples]
  congr 1

lemma computePeaks_min_le_max (samples : List ℚ) :
    ∀ pr ∈ computePeaks samples, pr.1 ≤ pr.2 := by
  intro pr hpr
  rw [computePeaks] at hpr
  obtain ⟨c, _, hsome⟩ := List.mem_filterMap.mp hpr
  by_cases hc : c.isEmpty
  · rw [if_pos hc] at hsome
    exact absurd hsome (by simp)
  · rw [if_neg hc] at hsome
    obtain rfl : (chunkMin c, chunkMax c) = pr := Option.some_injective _ hsome
    exact chunkMin_le_chunkMax c (by simpa using hc)

/-- Claim C4, counterexample.  The claim states compute_peaks returns
at most 2000 points for every buffer; but a buffer of length 2001 gets
window size max(2001, 2000) / 2000 = 1 and therefore 2001 points. -/
theorem compute_peaks_exceeds_target :
    (computePeaks (List.replicate 2001 (0 : ℚ))).length = 2001 ∧
    2000 < (computePeaks (List.replicate 2001 (0 : ℚ))).length := by
  have hne : List.replicate 2001 (0 : ℚ) ≠ [] := by
    apply List.ne_nil_of_length_pos
    rw [List.length_replicate]
    omega
  have h : (computePeaks (List.replicate 2001 (0 : ℚ))).length = 2001 := by
    rw [computePeaks_length _ hne]
    simp only [List.length_replicate]
    norm_num [Nat.max_def]
  exact ⟨h, by omega⟩

/-- Claim C4, amended: compute_peaks on the empty buffer returns the
empty sequence; on a non-empty buffer of length L it uses window size
w = max(L, 2000) / 2000 and returns exactly (L + w - 1) / w points —
at least one, but more than 2000 when 2000 < L < 4000 — and every
returned point satisfies min ≤ max. -/
theorem compute_peaks_spec :
    computePeaks [] = [] ∧
    ∀ samples : List ℚ, samples ≠ [] →
      ((computePeaks samples).length =
        (samples.length + (max samples.length 2000) / 2000 - 1) /
          ((max samples.length 2000) / 2000) ∧
       1 ≤ (computePeaks samples).length ∧
       ∀ pr ∈ computePeaks samples, pr.1 ≤ pr.2) := by
  refine ⟨by simp [computePeaks, listChunks],
    fun samples h => ⟨computePeaks_length samples h, ?_,
      computePeaks_min_le_max samples⟩⟩
  rw [computePeaks_length samples h]
  have hlen : 1 ≤ samples.length := List.length_pos.mpr h
  have hspp : 1 ≤ (max samples.length 2000) / 2000 :=
    (Nat.one_le_div_iff (by omega)).mpr (le_max_right _ _)
  rw [Nat.le_div_iff_mul_le (by omega)]
  omega

/-- Witness for C4 (amended) at a one-sample buffer. -/
theorem compute_peaks_spec_witness :
    computePeaks [] = [] ∧ (computePeaks [(5 : ℚ)]).length = 1 ∧
    1 ≤ (computePeaks [(5 : ℚ)]).length := by
  have h := compute_peaks_spec
  have h2 := h.2 [(5 : ℚ)] (by simp)
  refine ⟨h.1, ?_, h2.2.1⟩
  rw [h2.1]
  norm_num

/-! ## Claims about load -/

/-- On every failure inside the packet phase, the resulting engine state
is exactly the stopped prior state. -/
lemma load_packets_fail (p : AudioPlayer) (pkts : List (Option DecodedBuffer))
    (e : AudioPlayerError) (h : (load p (.packets pkts)).2 = .error e) :
    (load p (.packets pkts)).1 = stop p := by
  rcases hd : decodeAll p.outChannels pkts with e' | ns
  · simp [load, hd]
  · by_cases hni : ns.isEmpty
    · simp [load, hd, hni]
    · simp [load, hd, hni] at h

/-- Claim C2, amended: a failure before the packet loop (file open,
probe, no decodable track, decoder creation) leaves the whole engine
state untouched and returns the specific error; a failure inside or
after the packet loop (packet decode error, unsupported buffer format,
zero decoded samples) leaves the buffer, sample count and peaks
untouched but sets the state to Stopped and the position to 0, because
load stops playback before decoding. -/
theorem load_failure_preserves_buffer (p : AudioPlayer) :
    load p .openFail = (p, .error .IoError) ∧
    load p .probeFail = (p, .error .SymphoniaError) ∧
    load p .noTrack =
      (p, .error (.UnsupportedFormat "No supported audio tracks found")) ∧
    load p .decoderFail = (p, .error .SymphoniaError) ∧
    ∀ (pkts : List (Option DecodedBuffer)) (e : AudioPlayerError),
      (load p (.packets pkts)).2 = .error e →
        ((load p (.packets pkts)).1.samples = p.samples ∧
         (load p (.packets pkts)).1.samplesCount = p.samplesCount ∧
         (load p (.packets pkts)).1.peakSamples = p.peakSamples ∧
         (load p (.packets pkts)).1.loopEnabled = p.loopEnabled ∧
         (load p (.packets pkts)).1.state = .Stopped ∧
         (load p (.packets pkts)).1.playPos = 0) := by
  refine ⟨rfl, rfl, rfl, rfl, fun pkts e h => ?_⟩
  rw [load_packets_fail p pkts e h]
  exact ⟨rfl, rfl, rfl, rfl, rfl, rfl⟩

/-- A loaded stereo engine state in the middle of playback. -/
def playingFour : AudioPlayer :=
  { initialPlayer 2 44100 with
      samples := [1, 2, 3, 4], samplesCount := 4, playPos := 2,
      state := .Playing }

/-- Claim C2, counterexample.  The claim states that every failing load
leaves the playback position and playback state exactly as before the
call; but load calls stop() before the packet loop, so a packet decode
failure leaves the engine Stopped at position 0 instead of Playing at
position 2. -/
theorem failed_load_resets_transport :
    playingFour.state = .Playing ∧ playingFour.playPos = 2 ∧
    (load playingFour (.packets [none])).2 =
      .error (.DecodingError "Failed to decode packet") ∧
    (load playingFour (.packets [none])).1.state ≠ playingFour.state ∧
    (load playingFour (.packets [none])).1.playPos ≠ playingFour.playPos := by
  refine ⟨rfl, rfl, rfl, ?_, ?_⟩ <;>
    simp [load, decodeAll, stop, playingFour, initialPlayer]

/-- Witness for C2 (amended) at a concrete failing load. -/
theorem load_failure_preserves_buffer_witness :
    (load playingFour (.packets [none])).1.samples = playingFour.samples ∧
    (load playingFour (.packets [none])).1.peakSamples =
      playingFour.peakSamples ∧
    (load playingFour (.packets [none])).1.state = .Stopped ∧
    (load playingFour (.packets [none])).1.playPos = 0 := by
  have h := (load_failure_preserves_buffer playingFour).2.2.2.2 [none]
    (.DecodingError "Failed to decode packet") rfl
  exact ⟨h.1, h.2.2.1, h.2.2.2.2.1, h.2.2.2.2.2⟩

/-! ## Claims about the render callback -/

lemma framesFrom_succ (samples : List ℚ) (c pos k : ℕ) :
    framesFrom samples c pos (k + 1) =
      (samples.drop pos).take c :: framesFrom samples c (pos + c) k := by
  rw [framesFrom, framesFrom, List.range_succ_eq_map, List.map_cons,
    List.map_map]
  congr 1
  apply List.map_congr_left
  intro a _
  simp only [Function.comp_apply, Nat.succ_eq_add_one]
  congr 2
  ring

/-- Full characterization of the frame loop with looping disabled: it
copies as many whole frames as remain from the position, leaves the
rest of the output zeroed, keeps the position at the end of the last
copied frame, and stops exactly when the output was not filled from the
buffer alone. -/
lemma cbLoop_noLoop (samples : List ℚ) (c : ℕ) (hc : 0 < c) :
    ∀ (n pos : ℕ),
      cbLoop samples c false n pos =
        (framesFrom samples c pos (min n ((samples.length - pos) / c)) ++
           List.replicate (n - min n ((samples.length - pos) / c))
             (zeroFrame c),
         pos + c * min n ((samples.length - pos) / c),
         if (samples.length - pos) / c < n then PlaybackState.Stopped
         else PlaybackState.Playing) := by
  intro n
  induction n with
  | zero =>
    intro pos
    simp [cbLoop, framesFrom]
  | succ n ih =>
    intro pos
    by_cases h : pos + c ≤ samples.length
    · have hD1 : 1 ≤ (samples.length - pos) / c :=
        (Nat.one_le_div_iff hc).mpr (by omega)
      have hDrec : (samples.length - (pos + c)) / c =
          (samples.length - pos) / c - 1 := by
        have he : samples.length - pos = (samples.length - (pos + c)) + c := by
          omega
        have hd := Nat.add_div_right (samples.length - (pos + c)) hc
        rw [← he] at hd
        omega
      simp only [cbLoop, if_pos h, ih (pos + c)]
      have hmin : min (n + 1) ((samples.length - pos) / c) =
          min n ((samples.length - (pos + c)) / c) + 1 := by
        rw [hDrec]; omega
      simp only [Prod.mk.injEq]
      refine ⟨?_, ?_, ?_⟩
      · rw [hmin, framesFrom_succ, Nat.succ_sub_succ, List.cons_append]
      · have ha : n ⊓ ((samples.length - (pos + c)) / c) + 1 =
            (n + 1) ⊓ ((samples.length - pos) / c) := by omega
        rw [← ha]
        ring
      · have hiff : (samples.length - (pos + c)) / c < n ↔
            (samples.length - pos) / c < n + 1 := by omega
        exact if_congr hiff rfl rfl
    · have hD0 : (samples.length - pos) / c = 0 := Nat.div_eq_of_lt (by omega)
      simp [cbLoop, h, hD0, framesFrom]

/-- Invariants of the frame loop with looping enabled, for a buffer of
at least one frame: the state stays Playing, the final position never
exceeds the buffer length, and every emitted frame is a whole frame
read from inside the buffer. -/
lemma cbLoop_loop (samples : List ℚ) (c : ℕ) (hcle : c ≤ samples.length) :
    ∀ (n pos : ℕ), pos ≤ samples.length →
      (cbLoop samples c true n pos).2.2 = PlaybackState.Playing ∧
      (cbLoop samples c true n pos).2.1 ≤ samples.length ∧
      ∀ fr ∈ (cbLoop samples c true n pos).1,
        ∃ q, q + c ≤ samples.length ∧ fr = (samples.drop q).take c := by
  intro n
  induction n with
  | zero =>
    intro pos hpos
    refine ⟨by simp [cbLoop], by simpa [cbLoop] using hpos, by simp [cbLoop]⟩
  | succ n ih =>
    intro pos hpos
    by_cases h : pos + c ≤ samples.length
    · have hrec := ih (pos + c) h
      simp only [cbLoop, if_pos h]
      refine ⟨hrec.1, hrec.2.1, ?_⟩
      intro fr hfr
      rcases List.mem_cons.mp hfr with rfl | hmem
      · exact ⟨pos, h, rfl⟩
      · exact hrec.2.2 fr hmem
    · have hrec := ih c hcle
      simp only [cbLoop, if_neg h, if_pos hcle, if_pos rfl]
      refine ⟨hrec.1, hrec.2.1, ?_⟩
      intro fr hfr
      rcases List.mem_cons.mp hfr with rfl | hmem
      · exact ⟨0, by omega, by simp⟩
      · exact hrec.2.2 fr hmem

/-- Claim C7, counterexample.  The claim states that when the remaining
buffer does not cover a full frame and loop is disabled, the final
position equals the buffer length; but from the frame-unaligned
position 3 (reachable through seek(3)) on a 4-sample stereo buffer the
callback stops with the position still at 3, not 4. -/
theorem callback_unaligned_final_pos :
    (audioCallback ([0, 0, 0, 0] : List ℚ) 3 .Playing false 2 1).2.2 =
      .Stopped ∧
    (audioCallback ([0, 0, 0, 0] : List ℚ) 3 .Playing false 2 1).2.1 = 3 ∧
    (audioCallback ([0, 0, 0, 0] : List ℚ) 3 .Playing false 2 1).2.1 ≠
      ([0, 0, 0, 0] : List ℚ).length := by
  refine ⟨?_, ?_, ?_⟩ <;> simp [audioCallback, cbLoop]

/-- Claim C7, amended: for a Playing callback on a non-empty buffer
whose length and position are frame-aligned (both multiples of the
channel count — load, stop and the loop wrap maintain this; seek can
break it): with loop disabled, if the output demands more frames than
remain the callback emits the remaining whole frames, leaves the rest
of the output zeroed, sets the state to Stopped and leaves the position
exactly at the buffer length; with loop enabled (and the buffer at
least one frame long) the state stays Playing, the position never
exceeds the buffer length, every emitted frame is a whole frame read
from inside the buffer, and a frame that does not fit restarts
verbatim from the buffer start with the position wrapped to one frame
past 0. -/
theorem callback_end_behavior (samples : List ℚ) (c pos0 numFrames : ℕ)
    (hc : 0 < c) (hne : samples ≠ []) (hdl : c ∣ samples.length)
    (hdp : c ∣ pos0) (hple : pos0 ≤ samples.length) :
    (samples.length < pos0 + numFrames * c →
      audioCallback samples pos0 .Playing false c numFrames =
        (framesFrom samples c pos0 ((samples.length - pos0) / c) ++
           List.replicate (numFrames - (samples.length - pos0) / c)
             (zeroFrame c),
         samples.length, .Stopped)) ∧
    (c ≤ samples.length →
      ((audioCallback samples pos0 .Playing true c numFrames).2.2 =
         .Playing ∧
       (audioCallback samples pos0 .Playing true c numFrames).2.1 ≤
         samples.length ∧
       (∀ fr ∈ (audioCallback samples pos0 .Playing true c numFrames).1,
         ∃ q, q + c ≤ samples.length ∧ fr = (samples.drop q).take c) ∧
       (samples.length < pos0 + c →
         cbLoop samples c true 1 pos0 = ([samples.take c], c, .Playing)))) := by
  have hac : ∀ (lp : Bool) (nf : ℕ),
      audioCallback samples pos0 .Playing lp c nf =
        cbLoop samples c lp nf pos0 := by
    intro lp nf
    rw [audioCallback, if_pos ⟨rfl, hne⟩]
  constructor
  · intro hcover
    rw [hac, cbLoop_noLoop samples c hc numFrames pos0]
    have hDlt : (samples.length - pos0) / c < numFrames := by
      rw [Nat.div_lt_iff_lt_mul hc]
      omega
    have hdvd : c ∣ (samples.length - pos0) := Nat.dvd_sub' hdl hdp
    have hposlen : pos0 + c * ((samples.length - pos0) / c) =
        samples.length := by
      rw [Nat.mul_div_cancel' hdvd]
      omega
    rw [min_eq_right (le_of_lt hDlt), hposlen, if_pos hDlt]
  · intro hcle
    have h1 := cbLoop_loop samples c hcle numFrames pos0 hple
    refine ⟨by rw [hac]; exact h1.1, by rw [hac]; exact h1.2.1,
      by rw [hac]; exact h1.2.2, ?_⟩
    intro hlt
    simp only [cbLoop, if_neg (by omega : ¬pos0 + c ≤ samples.length),
      if_pos rfl, if_pos hcle]
    simp

/-- Witness for C7 (amended) on a 4-sample stereo buffer at the aligned
end position. -/
theorem callback_end_behavior_witness :
    (audioCallback ([1, 2, 3, 4] : List ℚ) 4 .Playing false 2 3).2.2 =
      .Stopped ∧
    (audioCallback ([1, 2, 3, 4] : List ℚ) 4 .Playing false 2 3).2.1 =
      ([1, 2, 3, 4] : List ℚ).length ∧
    (audioCallback ([1, 2, 3, 4] : List ℚ) 4 .Playing true 2 3).2.2 =
      .Playing ∧
    (audioCallback ([1, 2, 3, 4] : List ℚ) 4 .Playing true 2 3).2.1 ≤
      ([1, 2, 3, 4] : List ℚ).length := by
  have h := callback_end_behavior ([1, 2, 3, 4] : List ℚ) 2 4 3
    (by norm_num) (by simp) (by decide) (by decide) (by decide)
  have h1 := h.1 (by simp)
  have h2 := h.2 (by simp)
  exact ⟨by rw [h1], by rw [h1], h2.1, h2.2.1⟩

end SampleDuck
